import Mathlib

/-!
Shallow embedding of the dependency-resolution and spec-rewriting core of
`packetizer.py` (a pip-to-RPM packaging tool), together with proofs about it.

The embedding models:
* `Dependency._requires` — parsing of a pip requirement string into
  (requires, conflicts) constraint buckets, via the regex
  `^([<>!=]*)(.*)$` applied to each comma-separated part
  (`re.search` with Python semantics: `.` does not match a newline and `$`
  also matches just before a trailing newline; a failed match makes the
  Python code raise, modelled as `none`);
* `Packetizer._parse_deps_tree` — seeding `own_deps` from the report entries
  matching the target and flattening the dependency tree with an explicit
  work queue (`queue.pop(-1)` stack discipline), modelled with fuel since the
  Python loop need not terminate;
* the final `sorted({...})` dedup-and-sort over `Dependency` records, whose
  order is the Python dataclass tuple order (package, installed, requires,
  conflicts) with code-point string comparison;
* `Packetizer._patch_spec_data` — the single-pass line rewriter (the external
  `pip show` metadata lookup performed per own-dependency is modelled as an
  oracle function `lookup : String → String` giving the canonical name);
* `Package.expression` — the pip install expression.
-/

/-- Python string membership test `sub in s`: `pat` is a prefix of `l`. -/
def isPrefixChars : List Char → List Char → Bool
  | [], _ => true
  | _ :: _, [] => false
  | a :: as, b :: bs => a == b && isPrefixChars as bs

/-- Python string membership test `sub in s`: `pat` occurs inside `l`. -/
def isSubChars (pat : List Char) : List Char → Bool
  | [] => isPrefixChars pat []
  | c :: cs => isPrefixChars pat (c :: cs) || isSubChars pat cs

/-- Python `sub in s` on strings (substring containment). -/
def pyIn (sub s : String) : Bool := isSubChars sub.toList s.toList

/-- Python `s.split(',')` on the underlying character list. -/
def splitComma : List Char → List (List Char)
  | [] => [[]]
  | c :: cs =>
    match splitComma cs with
    | [] => [[]]
    | p :: ps => if c = ',' then [] :: p :: ps else (c :: p) :: ps

/-- `os.path.basename`: the part of the path after the last `/`. -/
def basename (p : String) : String :=
  ⟨p.toList.foldl (fun acc c => if c = '/' then [] else acc ++ [c]) []⟩

/-- The character class `[<>!=]` of the constraint-splitting regex. -/
def opChar (c : Char) : Bool := c == '<' || c == '>' || c == '!' || c == '='

/-- Python `re.search(r'^([<>!=]*)(.*)$', part)`.  Without `re.MULTILINE`,
`^` anchors at the string start, `.` does not match `'\n'`, and `$` matches
at the end of the string or just before a trailing newline.  Hence the match
fails (Python: `search` is `None` and `.groups()` raises) exactly when the
part contains a newline before its final character; otherwise group 1 is the
maximal leading run of `[<>!=]` characters and group 2 is the rest, with a
single trailing newline excluded. -/
def pyOpVerSplit (part : List Char) : Option (List Char × List Char) :=
  if part.dropLast.contains '\n' then none
  else
    let core := if part.getLast? == some '\n' then part.dropLast else part
    some (core.takeWhile opChar, core.dropWhile opChar)

/-- The loop body of `Dependency._requires` over the comma-separated parts:
parts whose operator is `!=` go to the conflicts bucket, all others to the
requires bucket, preserving order inside each bucket. -/
def pyRequiresParts : List (List Char) →
    Option (List (String × String) × List (String × String))
  | [] => some ([], [])
  | p :: ps =>
    match pyOpVerSplit p with
    | none => none
    | some (opL, verL) =>
      match pyRequiresParts ps with
      | none => none
      | some (rq, cf) =>
        if (⟨opL⟩ : String) ≠ "!=" then
          some (((⟨opL⟩ : String), (⟨verL⟩ : String)) :: rq, cf)
        else
          some (rq, ((⟨opL⟩ : String), (⟨verL⟩ : String)) :: cf)

/-- `Dependency._requires`: the empty (falsy) requirement yields `((), ())`;
otherwise the requirement is split on commas and each part is split by the
regex into operator and version. -/
def pyRequires (requirement : String) :
    Option (List (String × String) × List (String × String)) :=
  if requirement = "" then some ([], [])
  else pyRequiresParts (splitComma requirement.toList)

/-- The `Dependency` dataclass. -/
structure Dependency where
  package : String := ""
  installed : String := ""
  requires : List (String × String) := []
  conflicts : List (String × String) := []
deriving DecidableEq

/-- A raw dependency entry of the dependency-tree report
(`{'package_name': …, 'installed_version': …, 'required_version': …}`). -/
structure RawDep where
  package_name : String
  installed_version : String
  required_version : String
deriving DecidableEq

/-- One entry of the dependency-tree report: the package it describes
(only its `package_name` field is ever read) and its direct dependencies. -/
structure Entry where
  pkgname : String
  dependencies : List RawDep
deriving DecidableEq

/-- `Dependency.parse`: build a `Dependency` record from a raw report entry
(`none` models the exception propagating out of `_requires`). -/
def Dependency.parse (dep : RawDep) : Option Dependency :=
  match pyRequires dep.required_version with
  | none => none
  | some (rq, cf) => some ⟨dep.package_name, dep.installed_version, rq, cf⟩

/-- Dictionary/tuple comparison on `Nat` as Python orders integers. -/
def cmpNat (m n : Nat) : Ordering :=
  if m < n then .lt else if m = n then .eq else .gt

/-- Python compares characters by code point. -/
def cmpChar (a b : Char) : Ordering := cmpNat a.toNat b.toNat

/-- Lexicographic comparison of sequences, shorter prefixes first —
Python's tuple/string comparison. -/
def cmpList (c : α → α → Ordering) : List α → List α → Ordering
  | [], [] => .eq
  | [], _ :: _ => .lt
  | _ :: _, [] => .gt
  | a :: as, b :: bs => (c a b).then (cmpList c as bs)

/-- Python string comparison (lexicographic over code points). -/
def cmpStr (a b : String) : Ordering := cmpList cmpChar a.toList b.toList

/-- Comparison of `(operator, version)` constraint pairs. -/
def cmpPair (a b : String × String) : Ordering :=
  (cmpStr a.1 b.1).then (cmpStr a.2 b.2)

/-- The `order=True` dataclass comparison of `Dependency`: lexicographic over
the field tuple (package, installed, requires, conflicts). -/
def cmpDep (a b : Dependency) : Ordering :=
  (cmpStr a.package b.package).then
    ((cmpStr a.installed b.installed).then
      ((cmpList cmpPair a.requires b.requires).then
        (cmpList cmpPair a.conflicts b.conflicts)))

/-- The `≤` of the dataclass order on `Dependency`. -/
def depLe (a b : Dependency) : Prop := cmpDep a b ≠ Ordering.gt

instance : DecidableRel depLe := fun a b => by unfold depLe; infer_instance

/-- Python `sorted({...})`: the sorted list of the distinct elements. -/
def sortedDedup (l : List Dependency) : List Dependency :=
  List.insertionSort depLe l.dedup

/-- The `own_deps` seed of `_parse_deps_tree`: the concatenated direct
dependency lists of every report entry whose package name is the target. -/
def ownRaw (deps : List Entry) (target : String) : List RawDep :=
  (deps.filter (fun entry => entry.pkgname == target)).flatMap
    (fun entry => entry.dependencies)

/-- The inner loop of the flattening walk: everything enqueued when an item
with the given package name is popped. -/
def depsOfName (deps : List Entry) (name : String) : List RawDep :=
  (deps.filter (fun entry => entry.pkgname == name)).flatMap
    (fun entry => entry.dependencies)

/-- The `while queue:` flattening walk of `_parse_deps_tree`, with explicit
fuel: `queue.pop(-1)` removes the last element, the popped item is appended
to `all_deps`, and the direct dependencies of every report entry matching the
popped item's package name are appended to the queue.  `none` models the
Python loop still running after `fuel` iterations. -/
def walkFuel (deps : List Entry) : Nat → List RawDep → List RawDep → Option (List RawDep)
  | _, acc, [] => some acc
  | 0, _, _ :: _ => none
  | fuel + 1, acc, q :: qs =>
    let x := (q :: qs).getLast (List.cons_ne_nil q qs)
    walkFuel deps fuel (acc ++ [x])
      ((q :: qs).dropLast ++ depsOfName deps x.package_name)

/-- Parse every collected raw dependency, in order, failing on the first
entry whose requirement string fails to parse (models the Python
comprehension `{Dependency.parse(dep) for dep in …}`). -/
def parseAll : List RawDep → Option (List Dependency)
  | [] => some []
  | d :: ds =>
    match Dependency.parse d with
    | none => none
    | some x =>
      match parseAll ds with
      | none => none
      | some xs => some (x :: xs)

/-- `Packetizer._parse_deps_tree`: seed `own_deps`, run the flattening walk
(with fuel), then deduplicate and sort both parsed sets.  The result is the
pair `(package.own_deps, package.all_deps)`. -/
def parseDepsTree (deps : List Entry) (target : String) (fuel : Nat) :
    Option (List Dependency × List Dependency) :=
  match walkFuel deps fuel [] (ownRaw deps target) with
  | none => none
  | some allRaw =>
    match parseAll (ownRaw deps target), parseAll allRaw with
    | some ownParsed, some allParsed =>
      some (sortedDedup ownParsed, sortedDedup allParsed)
    | _, _ => none

/-- The `Package` dataclass (the fields the modelled code reads). -/
structure Package where
  package : String := ""
  version : String := ""
  archive : String := ""
  sources : String := ""
  own_deps : List Dependency := []
  all_deps : List Dependency := []

/-- `re.match(r'^[<>=]+', version)` succeeds exactly when the version starts
with one of `<`, `>`, `=`. -/
def startsWithVerOp (s : String) : Bool :=
  match s.toList with
  | c :: _ => c == '<' || c == '>' || c == '='
  | [] => false

/-- `Package.expression`: the pip install expression handed to the
installer. -/
def Package.expression (p : Package) : String :=
  if startsWithVerOp p.version then p.package ++ p.version
  else if p.version ≠ "" then p.package ++ "==" ++ p.version
  else p.package

/-- The per-line branch of `_patch_spec_data`'s loop: substring triggers are
tested in order; a non-matching line passes through unchanged.  On a
`%description` line the per-own-dependency declaration block is emitted
before the line itself; the full name of each dependency is the prefix plus
the canonical name returned by the rewrite-time metadata `lookup`. -/
def patchLine (pfx : String) (lookup : String → String) (package : Package)
    (line : String) : List String :=
  if pyIn "%define name" line then
    ["%define name " ++ pfx ++ package.package ++ "\n"]
  else if pyIn "%description" line then
    (package.own_deps.flatMap (fun dependency =>
      if dependency.requires = [] ∧ dependency.conflicts = [] then
        ["Requires: " ++ (pfx ++ lookup dependency.package) ++ "\n"]
      else
        (dependency.requires.map (fun rq =>
          "Requires: " ++ (pfx ++ lookup dependency.package) ++ " " ++
            rq.1 ++ " " ++ rq.2 ++ "\n")) ++
        (dependency.conflicts.map (fun cf =>
          "Conflicts: " ++ (pfx ++ lookup dependency.package) ++ " == " ++
            cf.2 ++ "\n")))) ++ [line]
  else if pyIn "%setup" line then
    ["%setup -n %{original_name}-%{unmangled_version}"]
  else if pyIn "Source0:" line then
    ["Source0: " ++ basename package.archive ++ "\n"]
  else [line]

/-- `Packetizer._patch_spec_data`: two prepended `%define` overrides, then
the single-pass rewrite of every input line. -/
def patchSpecData (systemPython pfx : String) (lookup : String → String)
    (package : Package) (lines : List String) : List String :=
  ("%define __python " ++ systemPython ++ "\n") ::
  ("%define original_name " ++ package.package ++ "\n") ::
  lines.flatMap (patchLine pfx lookup package)

/-- A line is newline-terminated. -/
def endsWithNewline (s : String) : Bool := s.toList.getLast? == some '\n'

/-! ### The dataclass comparison is a total order -/

/-- The laws a Python-style three-way comparator satisfies. -/
structure IsCmp {α : Type} (c : α → α → Ordering) : Prop where
  eq_iff : ∀ a b, c a b = Ordering.eq ↔ a = b
  swap_eq : ∀ a b, (c a b).swap = c b a
  lt_trans : ∀ {a b d}, c a b = Ordering.lt → c b d = Ordering.lt →
    c a d = Ordering.lt

theorem isCmp_cmpNat : IsCmp cmpNat := by
  constructor
  · intro a b
    unfold cmpNat
    split_ifs <;> simp <;> omega
  · intro a b
    unfold cmpNat
    split_ifs <;> simp [Ordering.swap] <;> omega
  · intro a b d hab hbd
    unfold cmpNat at *
    split_ifs at * <;> simp_all <;> omega

theorem char_toNat_inj {a b : Char} (h : a.toNat = b.toNat) : a = b := by
  rw [← Char.ofNat_toNat a, ← Char.ofNat_toNat b, h]

theorem isCmp_cmpChar : IsCmp cmpChar := by
  constructor
  · intro a b
    unfold cmpChar
    rw [isCmp_cmpNat.eq_iff]
    exact ⟨char_toNat_inj, fun h => by rw [h]⟩
  · intro a b
    exact isCmp_cmpNat.swap_eq a.toNat b.toNat
  · intro a b d hab hbd
    exact isCmp_cmpNat.lt_trans hab hbd

theorem then_eq_lt {o r : Ordering} :
    o.then r = Ordering.lt ↔ o = Ordering.lt ∨ (o = Ordering.eq ∧ r = Ordering.lt) := by
  cases o <;> simp [Ordering.then]

theorem then_eq_eq {o r : Ordering} :
    o.then r = Ordering.eq ↔ o = Ordering.eq ∧ r = Ordering.eq := by
  cases o <;> simp [Ordering.then]

theorem then_swap {o r : Ordering} : (o.then r).swap = o.swap.then r.swap := by
  cases o <;> simp [Ordering.then, Ordering.swap]

theorem isCmp_cmpList {α : Type} {c : α → α → Ordering} (hc : IsCmp c) :
    IsCmp (cmpList c) := by
  constructor
  · intro a b
    induction a generalizing b with
    | nil => cases b <;> simp [cmpList]
    | cons x xs ih =>
      cases b with
      | nil => simp [cmpList]
      | cons y ys => simp [cmpList, then_eq_eq, hc.eq_iff, ih]
  · intro a b
    induction a generalizing b with
    | nil => cases b <;> simp [cmpList, Ordering.swap]
    | cons x xs ih =>
      cases b with
      | nil => simp [cmpList, Ordering.swap]
      | cons y ys => simp [cmpList, then_swap, hc.swap_eq, ih]
  · intro a b d hab hbd
    induction a generalizing b d with
    | nil =>
      cases b with
      | nil => exact hbd
      | cons y ys => cases d with
        | nil => simp [cmpList] at hbd
        | cons z zs => simp [cmpList]
    | cons x xs ih =>
      cases b with
      | nil => simp [cmpList] at hab
      | cons y ys =>
        cases d with
        | nil => simp [cmpList] at hbd
        | cons z zs =>
          simp only [cmpList, then_eq_lt] at hab hbd ⊢
          rcases hab with hxy | ⟨hxy, hxys⟩ <;> rcases hbd with hyz | ⟨hyz, hyzs⟩
          · exact Or.inl (hc.lt_trans hxy hyz)
          · rw [hc.eq_iff] at hyz; subst hyz; exact Or.inl hxy
          · rw [hc.eq_iff] at hxy; subst hxy; exact Or.inl hyz
          · rw [hc.eq_iff] at hxy; subst hxy
            exact Or.inr ⟨hyz, ih hxys hyzs⟩

theorem string_toList_inj {a b : String} (h : a.toList = b.toList) : a = b := by
  cases a with
  | mk d1 =>
    cases b with
    | mk d2 =>
      simp only [String.toList] at h
      rw [h]

theorem isCmp_cmpStr : IsCmp cmpStr := by
  constructor
  · intro a b
    unfold cmpStr
    rw [(isCmp_cmpList isCmp_cmpChar).eq_iff]
    exact ⟨string_toList_inj, fun h => by rw [h]⟩
  · intro a b
    exact (isCmp_cmpList isCmp_cmpChar).swap_eq a.toList b.toList
  · intro a b d hab hbd
    exact (isCmp_cmpList isCmp_cmpChar).lt_trans hab hbd

/-- Lexicographic composition of two comparators along the components of a
pair — Python's tuple comparison, one component at a time. -/
def cmpProd {α β : Type} (c1 : α → α → Ordering) (c2 : β → β → Ordering)
    (a b : α × β) : Ordering :=
  (c1 a.1 b.1).then (c2 a.2 b.2)

theorem isCmp_cmpProd {α β : Type} {c1 : α → α → Ordering}
    {c2 : β → β → Ordering} (h1 : IsCmp c1) (h2 : IsCmp c2) :
    IsCmp (cmpProd c1 c2) := by
  constructor
  · intro a b
    cases a; cases b
    simp [cmpProd, then_eq_eq, h1.eq_iff, h2.eq_iff]
  · intro a b
    simp [cmpProd, then_swap, h1.swap_eq, h2.swap_eq]
  · intro a b d hab hbd
    simp only [cmpProd, then_eq_lt] at hab hbd ⊢
    rcases hab with hx | ⟨hx, hx'⟩ <;> rcases hbd with hy | ⟨hy, hy'⟩
    · exact Or.inl (h1.lt_trans hx hy)
    · rw [h1.eq_iff] at hy; rw [← hy] at *; exact Or.inl hx
    · rw [h1.eq_iff] at hx; rw [hx] at *; exact Or.inl hy
    · rw [h1.eq_iff] at hx; rw [hx] at *
      exact Or.inr ⟨hy, h2.lt_trans hx' hy'⟩

theorem isCmp_cmpPair : IsCmp cmpPair :=
  isCmp_cmpProd isCmp_cmpStr isCmp_cmpStr

/-- The field tuple a `Dependency` is compared by. -/
def depKey (d : Dependency) :
    String × String × List (String × String) × List (String × String) :=
  (d.package, d.installed, d.requires, d.conflicts)

theorem cmpDep_eq_cmpProd (a b : Dependency) :
    cmpDep a b =
      cmpProd cmpStr (cmpProd cmpStr
        (cmpProd (cmpList cmpPair) (cmpList cmpPair))) (depKey a) (depKey b) :=
  rfl

theorem isCmp_cmpDep : IsCmp cmpDep := by
  have hk : IsCmp (cmpProd cmpStr (cmpProd cmpStr
      (cmpProd (cmpList cmpPair) (cmpList cmpPair)))) :=
    isCmp_cmpProd isCmp_cmpStr (isCmp_cmpProd isCmp_cmpStr
      (isCmp_cmpProd (isCmp_cmpList isCmp_cmpPair)
        (isCmp_cmpList isCmp_cmpPair)))
  constructor
  · intro a b
    rw [cmpDep_eq_cmpProd, hk.eq_iff]
    constructor
    · intro h
      cases a; cases b
      simpa [depKey] using h
    · intro h; rw [h]
  · intro a b
    rw [cmpDep_eq_cmpProd, cmpDep_eq_cmpProd]
    exact hk.swap_eq _ _
  · intro a b d hab hbd
    rw [cmpDep_eq_cmpProd] at hab hbd ⊢
    exact hk.lt_trans hab hbd

theorem depLe_total (a b : Dependency) : depLe a b ∨ depLe b a := by
  unfold depLe
  cases h : cmpDep a b with
  | lt => exact Or.inl (by simp [h])
  | eq => exact Or.inl (by simp [h])
  | gt =>
    right
    have := isCmp_cmpDep.swap_eq a b
    rw [h] at this
    simp [Ordering.swap] at this
    simp [← this]

theorem depLe_trans {a b c : Dependency} (h1 : depLe a b) (h2 : depLe b c) :
    depLe a c := by
  unfold depLe at *
  cases hab : cmpDep a b with
  | gt => exact absurd hab h1
  | eq =>
    rw [isCmp_cmpDep.eq_iff] at hab
    rw [hab]; exact h2
  | lt =>
    cases hbc : cmpDep b c with
    | gt => exact absurd hbc h2
    | eq =>
      rw [isCmp_cmpDep.eq_iff] at hbc
      rw [← hbc]; simp [hab]
    | lt => simp [isCmp_cmpDep.lt_trans hab hbc]

theorem depLe_antisymm {a b : Dependency} (h1 : depLe a b) (h2 : depLe b a) :
    a = b := by
  unfold depLe at *
  cases hab : cmpDep a b with
  | gt => exact absurd hab h1
  | eq => exact (isCmp_cmpDep.eq_iff _ _).mp hab
  | lt =>
    exfalso
    apply h2
    have := isCmp_cmpDep.swap_eq a b
    rw [hab] at this
    simpa [Ordering.swap] using this.symm

instance : IsTotal Dependency depLe := ⟨depLe_total⟩

instance : IsTrans Dependency depLe := ⟨fun _ _ _ => depLe_trans⟩

instance : IsAntisymm Dependency depLe := ⟨fun _ _ => depLe_antisymm⟩

/-! ### Basic facts about `sortedDedup` -/

theorem mem_sortedDedup {a : Dependency} {l : List Dependency} :
    a ∈ sortedDedup l ↔ a ∈ l := by
  unfold sortedDedup
  rw [List.mem_insertionSort]
  exact List.mem_dedup

/-- `sortedDedup` depends only on the underlying set of elements. -/
theorem sortedDedup_eq_of_mem_iff {l₁ l₂ : List Dependency}
    (h : ∀ x, x ∈ l₁ ↔ x ∈ l₂) : sortedDedup l₁ = sortedDedup l₂ := by
  refine List.eq_of_perm_of_sorted ?_
    (List.sorted_insertionSort depLe l₁.dedup)
    (List.sorted_insertionSort depLe l₂.dedup)
  refine ((List.perm_insertionSort depLe l₁.dedup).trans ?_).trans
    (List.perm_insertionSort depLe l₂.dedup).symm
  refine List.perm_of_nodup_nodup_toFinset_eq (List.nodup_dedup l₁)
    (List.nodup_dedup l₂) ?_
  ext x
  simp only [List.mem_toFinset, List.mem_dedup]
  exact h x

/-! ### C10: the pip install expression -/

/-- C10: the installation expression handed to the installer is the package
name concatenated directly with the version when the version begins with one
of `<`, `>`, `=`; the string `name==version` when the version is non-empty
and does not begin with such a character; and the bare package name when the
version is empty. -/
theorem c10_expression (p : Package) :
    (∀ c cs, p.version.toList = c :: cs → (c = '<' ∨ c = '>' ∨ c = '=') →
      p.expression = p.package ++ p.version) ∧
    (∀ c cs, p.version.toList = c :: cs → ¬(c = '<' ∨ c = '>' ∨ c = '=') →
      p.expression = p.package ++ "==" ++ p.version) ∧
    (p.version = "" → p.expression = p.package) := by
  refine ⟨?_, ?_, ?_⟩
  · intro c cs hl hc
    have hs : startsWithVerOp p.version = true := by
      unfold startsWithVerOp
      rw [hl]
      rcases hc with h | h | h <;> simp [h]
    simp [Package.expression, hs]
  · intro c cs hl hc
    have hs : startsWithVerOp p.version = false := by
      unfold startsWithVerOp
      rw [hl]
      simp only [List.cons.injEq]
      push_neg at hc
      simp [hc.1, hc.2.1, hc.2.2]
    have hv : p.version ≠ "" := by
      intro h
      rw [h] at hl
      simp at hl
    simp [Package.expression, hs, hv]
  · intro hv
    have hs : startsWithVerOp p.version = false := by
      unfold startsWithVerOp
      rw [hv]
      rfl
    simp [Package.expression, hs, hv]

theorem c10_expression_witness :
    ({ package := "a", version := ">=2" } : Package).expression = "a>=2" ∧
    ({ package := "a", version := "2.0" } : Package).expression = "a==2.0" ∧
    ({ package := "a", version := "" } : Package).expression = "a" := by
  refine ⟨?_, ?_, ?_⟩
  · exact ((c10_expression { package := "a", version := ">=2" }).1
      '>' ['=', '2'] (by decide) (by decide)).trans (by decide)
  · exact (((c10_expression { package := "a", version := "2.0" }).2.1)
      '2' ['.', '0'] (by decide) (by decide)).trans (by decide)
  · exact ((c10_expression { package := "a", version := "" }).2.2) (by decide)

/-! ### C9: the Source0 rewrite -/

/-- C9: a line containing the trigger `Source0:` (and none of the triggers
tested before it in the single-pass rewrite) is replaced by a line naming
only the directory-stripped base filename of the package's fetched
archive. -/
theorem c9_source_line (sp pfx : String) (lookup : String → String)
    (package : Package) (pre post : List String) (line : String)
    (h1 : pyIn "%define name" line = false)
    (h2 : pyIn "%description" line = false)
    (h3 : pyIn "%setup" line = false)
    (h4 : pyIn "Source0:" line = true) :
    patchSpecData sp pfx lookup package (pre ++ line :: post) =
      ("%define __python " ++ sp ++ "\n") ::
      ("%define original_name " ++ package.package ++ "\n") ::
      (pre.flatMap (patchLine pfx lookup package) ++
        ("Source0: " ++ basename package.archive ++ "\n") ::
        post.flatMap (patchLine pfx lookup package)) := by
  simp [patchSpecData, patchLine, h1, h2, h3, h4]

theorem c9_source_line_witness :
    patchSpecData "py" "" (fun n => n)
      { package := "foo", archive := "/sources/foo-1.2.3.tar.gz" }
      ["Source0: foo.tar.gz\n"] =
      ["%define __python py\n", "%define original_name foo\n",
       "Source0: foo-1.2.3.tar.gz\n"] := by
  have h := c9_source_line "py" "" (fun n => n)
    { package := "foo", archive := "/sources/foo-1.2.3.tar.gz" }
    [] [] "Source0: foo.tar.gz\n" (by decide) (by decide) (by decide) (by decide)
  exact h.trans (by decide)

/-! ### C3: the dependency declarations emitted before `%description` -/

/-- C3: when the rewriter reaches a line containing the `%description`
marker (and not an earlier trigger), it emits before that line, for each
own-dependency in order and with the canonical name obtained from the
rewrite-time metadata lookup: one plain `Requires:` line when the dependency
has no requires and no conflicts, and otherwise one `Requires:` line per
requires entry and one `Conflicts: … == version` line per conflicts entry,
the conflict always pinned with `==`. -/
theorem c3_description_block (sp pfx : String) (lookup : String → String)
    (package : Package) (pre post : List String) (line : String)
    (h1 : pyIn "%define name" line = false)
    (h2 : pyIn "%description" line = true) :
    patchSpecData sp pfx lookup package (pre ++ line :: post) =
      ("%define __python " ++ sp ++ "\n") ::
      ("%define original_name " ++ package.package ++ "\n") ::
      (pre.flatMap (patchLine pfx lookup package) ++
        ((package.own_deps.flatMap (fun dependency =>
          if dependency.requires = [] ∧ dependency.conflicts = [] then
            ["Requires: " ++ (pfx ++ lookup dependency.package) ++ "\n"]
          else
            (dependency.requires.map (fun rq =>
              "Requires: " ++ (pfx ++ lookup dependency.package) ++ " " ++
                rq.1 ++ " " ++ rq.2 ++ "\n")) ++
            (dependency.conflicts.map (fun cf =>
              "Conflicts: " ++ (pfx ++ lookup dependency.package) ++ " == " ++
                cf.2 ++ "\n")))) ++
          line :: post.flatMap (patchLine pfx lookup package))) := by
  simp [patchSpecData, patchLine, h1, h2]

theorem c3_description_block_witness :
    patchSpecData "py" "mycompany-" (fun _ => "depname")
      { package := "p", own_deps := [⟨"dn", "2.0", [], [("!=", "2.0")]⟩] }
      ["%description\n"] =
      ["%define __python py\n", "%define original_name p\n",
       "Conflicts: mycompany-depname == 2.0\n", "%description\n"] := by
  have h := c3_description_block "py" "mycompany-" (fun _ => "depname")
    { package := "p", own_deps := [⟨"dn", "2.0", [], [("!=", "2.0")]⟩] }
    [] [] "%description\n" (by decide) (by decide)
  exact h.trans (by decide)

/-! ### C8: the rewriter output is not always newline-terminated -/

/-- C8 (refuting evaluation): on an input descriptor whose single line
`"%setup\n"` is newline-terminated, the rewriter's fixed replacement for the
unpack/setup directive is emitted without a trailing newline, so not every
element of the output is a newline-terminated line. -/
theorem c8_setup_line_eval :
    endsWithNewline "%setup\n" = true ∧
    patchSpecData "py" "pfx-" (fun n => n) { package := "p" } ["%setup\n"] =
      ["%define __python py\n", "%define original_name p\n",
       "%setup -n %{original_name}-%{unmangled_version}"] ∧
    endsWithNewline "%setup -n %{original_name}-%{unmangled_version}" = false := by
  refine ⟨by decide, by decide, by decide⟩

/-! ### C7: a target absent from the report -/

theorem ownRaw_eq_nil {deps : List Entry} {target : String}
    (h : ∀ entry ∈ deps, entry.pkgname ≠ target) :
    ownRaw deps target = [] := by
  unfold ownRaw
  have : deps.filter (fun entry => entry.pkgname == target) = [] := by
    rw [List.filter_eq_nil_iff]
    intro entry he
    simpa using h entry he
  rw [this]
  rfl

/-- C7: when no report entry's package name equals the target, the resolver
returns with empty (sorted) `own_deps` and `all_deps` and raises no error. -/
theorem c7_absent_target (deps : List Entry) (target : String) (fuel : Nat)
    (h : ∀ entry ∈ deps, entry.pkgname ≠ target) :
    parseDepsTree deps target fuel = some ([], []) := by
  unfold parseDepsTree
  rw [ownRaw_eq_nil h]
  cases fuel <;> rfl

theorem c7_absent_target_witness :
    parseDepsTree [⟨"b", [⟨"c", "1", ""⟩]⟩] "a" 0 = some ([], []) :=
  c7_absent_target [⟨"b", [⟨"c", "1", ""⟩]⟩] "a" 0 (by decide)

/-! ### C2/C6: the constraint parser -/

theorem splitComma_ne_nil (l : List Char) : splitComma l ≠ [] := by
  induction l with
  | nil => simp [splitComma]
  | cons c cs ih =>
    unfold splitComma
    rcases h : splitComma cs with _ | ⟨p, ps⟩
    · exact absurd h ih
    · by_cases hc : c = ',' <;> simp [hc]

theorem splitComma_cons_eq {x : Char} {xs q : List Char} {qs : List (List Char)}
    (h : splitComma xs = q :: qs) :
    splitComma (x :: xs) = if x = ',' then [] :: q :: qs else (x :: q) :: qs := by
  unfold splitComma
  rw [h]

/-- Every character of a comma-part comes from the split string. -/
theorem splitComma_chars {l p : List Char} {c : Char}
    (hp : p ∈ splitComma l) (hc : c ∈ p) : c ∈ l := by
  induction l generalizing p with
  | nil =>
    simp [splitComma] at hp
    subst hp
    simp at hc
  | cons x xs ih =>
    rcases h : splitComma xs with _ | ⟨q, qs⟩
    · exact absurd h (splitComma_ne_nil xs)
    · rw [splitComma_cons_eq h] at hp
      by_cases hx : x = ','
      · rw [if_pos hx] at hp
        rcases List.mem_cons.mp hp with h1 | h1
        · subst h1; simp at hc
        · exact List.mem_cons_of_mem x (ih (by rw [h]; exact h1) hc)
      · rw [if_neg hx] at hp
        rcases List.mem_cons.mp hp with h1 | h1
        · subst h1
          rcases List.mem_cons.mp hc with h2 | h2
          · exact List.mem_cons.mpr (Or.inl h2)
          · exact List.mem_cons_of_mem x
              (ih (by rw [h]; exact List.mem_cons_self q qs) h2)
        · exact List.mem_cons_of_mem x
            (ih (by rw [h]; exact List.mem_cons_of_mem q h1) hc)

/-- On a part without newlines the regex split is simply the maximal leading
run of operator characters and the rest. -/
theorem pyOpVerSplit_no_newline {p : List Char} (h : '\n' ∉ p) :
    pyOpVerSplit p = some (p.takeWhile opChar, p.dropWhile opChar) := by
  have hmem : '\n' ∉ p.dropLast := fun hm => h ((List.dropLast_sublist p).subset hm)
  have h2 : p.getLast? ≠ some '\n' := fun hg => h (List.mem_of_mem_getLast? hg)
  unfold pyOpVerSplit
  simp [hmem, h2]

theorem pyRequiresParts_cons_none1 {p : List Char} {ps : List (List Char)}
    (hov : pyOpVerSplit p = none) : pyRequiresParts (p :: ps) = none := by
  unfold pyRequiresParts
  rw [hov]

theorem pyRequiresParts_cons_none2 {p opL verL : List Char}
    {ps : List (List Char)} (hov : pyOpVerSplit p = some (opL, verL))
    (hps : pyRequiresParts ps = none) : pyRequiresParts (p :: ps) = none := by
  unfold pyRequiresParts
  rw [hov, hps]

theorem pyRequiresParts_cons_some {p opL verL : List Char}
    {ps : List (List Char)} {rq' cf' : List (String × String)}
    (hov : pyOpVerSplit p = some (opL, verL))
    (hps : pyRequiresParts ps = some (rq', cf')) :
    pyRequiresParts (p :: ps) =
      if (⟨opL⟩ : String) ≠ "!=" then
        some (((⟨opL⟩ : String), (⟨verL⟩ : String)) :: rq', cf')
      else
        some (rq', ((⟨opL⟩ : String), (⟨verL⟩ : String)) :: cf') := by
  unfold pyRequiresParts
  rw [hov, hps]

theorem pyRequiresParts_no_newline {parts : List (List Char)}
    (h : ∀ p ∈ parts, '\n' ∉ p) :
    pyRequiresParts parts = some
      (parts.filterMap (fun part =>
        if (⟨part.takeWhile opChar⟩ : String) ≠ "!=" then
          some ((⟨part.takeWhile opChar⟩ : String), (⟨part.dropWhile opChar⟩ : String))
        else none),
       parts.filterMap (fun part =>
        if (⟨part.takeWhile opChar⟩ : String) = "!=" then
          some ((⟨part.takeWhile opChar⟩ : String), (⟨part.dropWhile opChar⟩ : String))
        else none)) := by
  induction parts with
  | nil => rfl
  | cons p ps ih =>
    rw [pyRequiresParts_cons_some
      (pyOpVerSplit_no_newline (h p (List.mem_cons_self p ps)))
      (ih (fun q hq => h q (List.mem_cons_of_mem p hq)))]
    by_cases hop : (⟨p.takeWhile opChar⟩ : String) = "!="
    · simp [hop, List.filterMap_cons]
    · simp [hop, List.filterMap_cons]

/-- C2 counterexample: on the requirement string `"a\nb"` the regex fails to
match the comma-part (Python raises an `AttributeError` on `.groups()`), so
the parser does not produce the operator/version split the claim
describes. -/
theorem c2_newline_counterexample :
    pyRequires "a\nb" = none ∧ pyRequires "a\nb" ≠ some ([("", "a\nb")], []) := by
  exact ⟨by decide, by decide⟩

/-- The regex raises exactly on a part with a newline before its final
character. -/
theorem pyOpVerSplit_none_of_interior {p : List Char} (h : '\n' ∈ p.dropLast) :
    pyOpVerSplit p = none := by
  unfold pyOpVerSplit
  rw [if_pos (by simpa using h)]

/-- On a part without interior newlines the regex split is the maximal
leading run of operator characters and the rest of the part, a single
trailing newline being excluded by `$`. -/
theorem pyOpVerSplit_of_no_interior {p : List Char} (h : '\n' ∉ p.dropLast) :
    pyOpVerSplit p = some
      ((if p.getLast? == some '\n' then p.dropLast else p).takeWhile opChar,
       (if p.getLast? == some '\n' then p.dropLast else p).dropWhile opChar) := by
  unfold pyOpVerSplit
  rw [if_neg (by simpa using h)]

/-- The whole parse raises as soon as any comma-part has an interior
newline. -/
theorem pyRequiresParts_none_of_interior {parts : List (List Char)}
    (h : ∃ p ∈ parts, '\n' ∈ p.dropLast) : pyRequiresParts parts = none := by
  induction parts with
  | nil =>
    obtain ⟨p, hp, _⟩ := h
    cases hp
  | cons q qs ih =>
    obtain ⟨p, hp, hnl⟩ := h
    rcases List.mem_cons.mp hp with rfl | hp'
    · exact pyRequiresParts_cons_none1 (pyOpVerSplit_none_of_interior hnl)
    · cases hov : pyOpVerSplit q with
      | none => exact pyRequiresParts_cons_none1 hov
      | some ov =>
        obtain ⟨opL, verL⟩ := ov
        exact pyRequiresParts_cons_none2 hov (ih ⟨p, hp', hnl⟩)

/-- When no comma-part has an interior newline, the parse succeeds and routes
each part (with a trailing newline stripped) by its operator. -/
theorem pyRequiresParts_of_no_interior {parts : List (List Char)}
    (h : ∀ p ∈ parts, '\n' ∉ p.dropLast) :
    pyRequiresParts parts = some
      (parts.filterMap (fun part =>
        if (⟨(if part.getLast? == some '\n' then part.dropLast
              else part).takeWhile opChar⟩ : String) ≠ "!=" then
          some ((⟨(if part.getLast? == some '\n' then part.dropLast
                   else part).takeWhile opChar⟩ : String),
                (⟨(if part.getLast? == some '\n' then part.dropLast
                   else part).dropWhile opChar⟩ : String))
        else none),
       parts.filterMap (fun part =>
        if (⟨(if part.getLast? == some '\n' then part.dropLast
              else part).takeWhile opChar⟩ : String) = "!=" then
          some ((⟨(if part.getLast? == some '\n' then part.dropLast
                   else part).takeWhile opChar⟩ : String),
                (⟨(if part.getLast? == some '\n' then part.dropLast
                   else part).dropWhile opChar⟩ : String))
        else none)) := by
  induction parts with
  | nil => rfl
  | cons p ps ih =>
    rw [pyRequiresParts_cons_some
      (pyOpVerSplit_of_no_interior (h p (List.mem_cons_self p ps)))
      (ih (fun q hq => h q (List.mem_cons_of_mem p hq)))]
    by_cases hop : (⟨(if p.getLast? = some '\n' then p.dropLast
        else p).takeWhile opChar⟩ : String) = "!="
    · simp [hop, List.filterMap_cons]
    · simp [hop, List.filterMap_cons]

/-- C2 (amended): the empty requirement yields `((), ())`; any other string
is split on commas; if some comma-part contains a newline before its final
character, the parser raises (no result); otherwise each comma-part — with a
single trailing newline excluded from it by `$` — is split into its maximal
leading run of comparison-operator characters and the trailing version
string, `!=` parts go to conflicts and every other part to requires,
preserving relative order within each bucket; in particular
`">=1.0,!=1.5,<2.0"` yields the quoted buckets. -/
theorem c2_constraint_split :
    pyRequires "" = some ([], []) ∧
    (∀ s : String, s ≠ "" →
      (∃ p ∈ splitComma s.toList, '\n' ∈ p.dropLast) →
      pyRequires s = none) ∧
    (∀ s : String, s ≠ "" →
      (∀ p ∈ splitComma s.toList, '\n' ∉ p.dropLast) →
      pyRequires s = some
        ((splitComma s.toList).filterMap (fun part =>
          if (⟨(if part.getLast? == some '\n' then part.dropLast
                else part).takeWhile opChar⟩ : String) ≠ "!=" then
            some ((⟨(if part.getLast? == some '\n' then part.dropLast
                     else part).takeWhile opChar⟩ : String),
                  (⟨(if part.getLast? == some '\n' then part.dropLast
                     else part).dropWhile opChar⟩ : String))
          else none),
         (splitComma s.toList).filterMap (fun part =>
          if (⟨(if part.getLast? == some '\n' then part.dropLast
                else part).takeWhile opChar⟩ : String) = "!=" then
            some ((⟨(if part.getLast? == some '\n' then part.dropLast
                     else part).takeWhile opChar⟩ : String),
                  (⟨(if part.getLast? == some '\n' then part.dropLast
                     else part).dropWhile opChar⟩ : String))
          else none))) ∧
    pyRequires ">=1.0,!=1.5,<2.0" =
      some ([(">=", "1.0"), ("<", "2.0")], [("!=", "1.5")]) := by
  refine ⟨by decide, ?_, ?_, by decide⟩
  · intro s hs hex
    unfold pyRequires
    rw [if_neg hs]
    exact pyRequiresParts_none_of_interior hex
  · intro s hs hall
    unfold pyRequires
    rw [if_neg hs]
    exact pyRequiresParts_of_no_interior hall

theorem c2_constraint_split_witness :
    pyRequires "<=1.0,!=2" = some ([("<=", "1.0")], [("!=", "2")]) ∧
    pyRequires "<3\n" = some ([("<", "3")], []) ∧
    pyRequires "x\ny" = none := by
  refine ⟨?_, ?_, ?_⟩
  · have h := c2_constraint_split.2.2.1 "<=1.0,!=2" (by decide) (by decide)
    exact h.trans (by decide)
  · have h := c2_constraint_split.2.2.1 "<3\n" (by decide) (by decide)
    exact h.trans (by decide)
  · exact c2_constraint_split.2.1 "x\ny" (by decide) (by decide)

theorem pyOpVerSplit_ops {p o v : List Char}
    (h : pyOpVerSplit p = some (o, v)) : ∀ c ∈ o, opChar c = true := by
  unfold pyOpVerSplit at h
  by_cases hc : '\n' ∈ p.dropLast
  · rw [if_pos (by simpa using hc)] at h
    cases h
  · rw [if_neg (by simpa using hc)] at h
    simp only [Option.some.injEq, Prod.mk.injEq] at h
    obtain ⟨rfl, rfl⟩ := h
    intro c hcm
    exact List.mem_takeWhile_imp hcm

/-- C6 counterexample: the requirement string `"=1.0"` produces the
operator/version pair `("=", "1.0")`, and `"="` is not one of the operators
the claim allows. -/
theorem c6_charset_counterexample :
    pyRequires "=1.0" = some ([("=", "1.0")], []) ∧
    ("=" : String) ∉ ["<", ">", "<=", ">=", "==", "!=", ""] := by
  exact ⟨by decide, by decide⟩

theorem pyRequiresParts_ops {parts : List (List Char)}
    {rq cf : List (String × String)}
    (h : pyRequiresParts parts = some (rq, cf)) :
    ∀ pa ∈ rq ++ cf, ∀ c ∈ pa.1.toList, opChar c = true := by
  induction parts generalizing rq cf with
  | nil =>
    simp [pyRequiresParts] at h
    obtain ⟨rfl, rfl⟩ := h
    simp
  | cons p ps ih =>
    cases hov : pyOpVerSplit p with
    | none => rw [pyRequiresParts_cons_none1 hov] at h; cases h
    | some ov =>
      obtain ⟨opL, verL⟩ := ov
      cases hps : pyRequiresParts ps with
      | none => rw [pyRequiresParts_cons_none2 hov hps] at h; cases h
      | some rc =>
        obtain ⟨rq', cf'⟩ := rc
        rw [pyRequiresParts_cons_some hov hps] at h
        by_cases hop : (⟨opL⟩ : String) = "!="
        · rw [if_neg (fun hne => hne hop)] at h
          simp only [Option.some.injEq, Prod.mk.injEq] at h
          obtain ⟨rfl, rfl⟩ := h
          intro pa hpa c hcm
          rcases List.mem_append.mp hpa with h1 | h1
          · exact ih hps pa (List.mem_append.mpr (Or.inl h1)) c hcm
          · rcases List.mem_cons.mp h1 with h2 | h2
            · subst h2
              exact pyOpVerSplit_ops hov c hcm
            · exact ih hps pa (List.mem_append.mpr (Or.inr h2)) c hcm
        · rw [if_pos hop] at h
          simp only [Option.some.injEq, Prod.mk.injEq] at h
          obtain ⟨rfl, rfl⟩ := h
          intro pa hpa c hcm
          rcases List.mem_append.mp hpa with h1 | h1
          · rcases List.mem_cons.mp h1 with h2 | h2
            · subst h2
              exact pyOpVerSplit_ops hov c hcm
            · exact ih hps pa (List.mem_append.mpr (Or.inl h2)) c hcm
          · exact ih hps pa (List.mem_append.mpr (Or.inr h1)) c hcm

/-- C6 (amended): every operator produced by the constraint parser — in
either bucket — is a (possibly empty) run of characters drawn from `<`, `>`,
`!`, `=` (the regex places no further restriction, so e.g. `"="` or `"<<"`
are also possible). -/
theorem c6_operator_runs (s : String) (rq cf : List (String × String))
    (h : pyRequires s = some (rq, cf)) :
    ∀ pa ∈ rq ++ cf, ∀ c ∈ pa.1.toList, opChar c = true := by
  unfold pyRequires at h
  by_cases hs : s = ""
  · rw [if_pos hs] at h
    simp only [Option.some.injEq, Prod.mk.injEq] at h
    obtain ⟨rfl, rfl⟩ := h
    simp
  · rw [if_neg hs] at h
    exact pyRequiresParts_ops h

theorem c6_operator_runs_witness : opChar '<' = true :=
  c6_operator_runs "<2" [("<", "2")] [] (by decide) ("<", "2") (by decide)
    '<' (by decide)

/-! ### C1: own ⊆ all -/

/-- Unfolding one step of the walk: popping the last queue element. -/
theorem walkFuel_concat (deps : List Entry) (fuel : Nat) (acc pre : List RawDep)
    (x : RawDep) :
    walkFuel deps (fuel + 1) acc (pre ++ [x]) =
      walkFuel deps fuel (acc ++ [x]) (pre ++ depsOfName deps x.package_name) := by
  cases pre with
  | nil => rfl
  | cons p ps =>
    have hg : (p :: (ps ++ [x])).getLast (List.cons_ne_nil _ _) = x := by
      simp [List.getLast_concat]
    have hd : (p :: (ps ++ [x])).dropLast = p :: ps := by
      rw [← List.cons_append, List.dropLast_concat]
    show walkFuel deps (fuel + 1) acc (p :: (ps ++ [x])) = _
    simp only [walkFuel]
    rw [hd, hg]

/-- Everything in the accumulator or the queue of a terminating walk ends up
in the collected output. -/
theorem walkFuel_subset {deps : List Entry} {fuel : Nat}
    {acc queue out : List RawDep} (h : walkFuel deps fuel acc queue = some out) :
    (∀ y ∈ acc, y ∈ out) ∧ (∀ y ∈ queue, y ∈ out) := by
  induction fuel generalizing acc queue with
  | zero =>
    cases queue with
    | nil =>
      obtain rfl : acc = out := by injection h
      exact ⟨fun y hy => hy, fun y hy => absurd hy (List.not_mem_nil y)⟩
    | cons q qs => cases h
  | succ n ih =>
    cases queue with
    | nil =>
      obtain rfl : acc = out := by injection h
      exact ⟨fun y hy => hy, fun y hy => absurd hy (List.not_mem_nil y)⟩
    | cons q qs =>
      have hqx : q :: qs = (q :: qs).dropLast ++
          [(q :: qs).getLast (List.cons_ne_nil q qs)] :=
        (List.dropLast_append_getLast (List.cons_ne_nil q qs)).symm
      rw [hqx, walkFuel_concat] at h
      obtain ⟨hacc, hque⟩ := ih h
      constructor
      · intro y hy
        exact hacc y (List.mem_append.mpr (Or.inl hy))
      · intro y hy
        rw [hqx] at hy
        rcases List.mem_append.mp hy with h1 | h1
        · exact hque y (List.mem_append.mpr (Or.inl h1))
        · rcases List.mem_singleton.mp h1 with rfl
          exact hacc _ (List.mem_append.mpr (Or.inr (List.mem_singleton.mpr rfl)))

theorem parseAll_cons_none1 {d : RawDep} {ds : List RawDep}
    (h : Dependency.parse d = none) : parseAll (d :: ds) = none := by
  unfold parseAll
  rw [h]

theorem parseAll_cons_none2 {d : RawDep} {x : Dependency} {ds : List RawDep}
    (hx : Dependency.parse d = some x) (hds : parseAll ds = none) :
    parseAll (d :: ds) = none := by
  unfold parseAll
  rw [hx, hds]

theorem parseAll_cons_some {d : RawDep} {x : Dependency} {ds : List RawDep}
    {xs : List Dependency} (hx : Dependency.parse d = some x)
    (hds : parseAll ds = some xs) : parseAll (d :: ds) = some (x :: xs) := by
  unfold parseAll
  rw [hx, hds]

/-- Membership in a successfully parsed list. -/
theorem parseAll_mem {l : List RawDep} {r : List Dependency}
    (h : parseAll l = some r) :
    ∀ d, d ∈ r ↔ ∃ x ∈ l, Dependency.parse x = some d := by
  induction l generalizing r with
  | nil =>
    obtain rfl : ([] : List Dependency) = r := by injection h
    simp
  | cons a as ih =>
    cases ha : Dependency.parse a with
    | none => rw [parseAll_cons_none1 ha] at h; cases h
    | some x =>
      cases has : parseAll as with
      | none => rw [parseAll_cons_none2 ha has] at h; cases h
      | some xs =>
        rw [parseAll_cons_some ha has] at h
        obtain rfl : x :: xs = r := by injection h
        intro d
        constructor
        · intro hd
          rcases List.mem_cons.mp hd with h1 | h1
          · exact ⟨a, List.mem_cons_self a as, by rw [← h1] at ha; exact ha⟩
          · obtain ⟨y, hy, hyp⟩ := (ih has d).mp h1
            exact ⟨y, List.mem_cons_of_mem a hy, hyp⟩
        · rintro ⟨y, hy, hyp⟩
          rcases List.mem_cons.mp hy with h1 | h1
          · subst h1
            rw [ha] at hyp
            injection hyp with h2
            exact List.mem_cons.mpr (Or.inl h2.symm)
          · exact List.mem_cons_of_mem x ((ih has d).mpr ⟨y, h1, hyp⟩)

theorem parseDepsTree_walk_some {deps : List Entry} {target : String}
    {fuel : Nat} {allRaw : List RawDep}
    (hw : walkFuel deps fuel [] (ownRaw deps target) = some allRaw) :
    parseDepsTree deps target fuel =
      match parseAll (ownRaw deps target), parseAll allRaw with
      | some ownParsed, some allParsed =>
        some (sortedDedup ownParsed, sortedDedup allParsed)
      | _, _ => none := by
  unfold parseDepsTree
  rw [hw]

/-- Inversion of a successful `parseDepsTree` run. -/
theorem parseDepsTree_inv {deps : List Entry} {target : String} {fuel : Nat}
    {own alls : List Dependency}
    (h : parseDepsTree deps target fuel = some (own, alls)) :
    ∃ allRaw ownP allP,
      walkFuel deps fuel [] (ownRaw deps target) = some allRaw ∧
      parseAll (ownRaw deps target) = some ownP ∧
      parseAll allRaw = some allP ∧
      own = sortedDedup ownP ∧ alls = sortedDedup allP := by
  cases hw : walkFuel deps fuel [] (ownRaw deps target) with
  | none => unfold parseDepsTree at h; rw [hw] at h; cases h
  | some allRaw =>
    rw [parseDepsTree_walk_some hw] at h
    cases ho : parseAll (ownRaw deps target) with
    | none => rw [ho] at h; cases h
    | some ownP =>
      rw [ho] at h
      cases ha : parseAll allRaw with
      | none => rw [ha] at h; cases h
      | some allP =>
        rw [ha] at h
        injection h with h2
        injection h2 with h3 h4
        exact ⟨allRaw, ownP, allP, rfl, rfl, ha, h3.symm, h4.symm⟩

/-- C1: for every dependency-tree report, every target package name and any
fuel on which the flattening walk terminates, every `Dependency` record of
the resolver's final (deduplicated, sorted) `own_deps` also appears in its
final `all_deps`. -/
theorem c1_own_subset_all (deps : List Entry) (target : String) (fuel : Nat)
    (own alls : List Dependency)
    (h : parseDepsTree deps target fuel = some (own, alls)) :
    ∀ d ∈ own, d ∈ alls := by
  obtain ⟨allRaw, ownP, allP, hw, ho, ha, rfl, rfl⟩ := parseDepsTree_inv h
  intro d hd
  rw [mem_sortedDedup] at hd ⊢
  obtain ⟨x, hx, hxp⟩ := (parseAll_mem ho d).mp hd
  have hxall : x ∈ allRaw := (walkFuel_subset hw).2 x hx
  exact (parseAll_mem ha d).mpr ⟨x, hxall, hxp⟩

theorem c1_own_subset_all_witness :
    (⟨"b", "1.0", [], []⟩ : Dependency) ∈
      ([⟨"b", "1.0", [], []⟩, ⟨"c", "2.0", [("<", "3")], []⟩] :
        List Dependency) :=
  c1_own_subset_all [⟨"a", [⟨"b", "1.0", ""⟩]⟩, ⟨"b", [⟨"c", "2.0", "<3"⟩]⟩]
    "a" 5 [⟨"b", "1.0", [], []⟩]
    [⟨"b", "1.0", [], []⟩, ⟨"c", "2.0", [("<", "3")], []⟩]
    (by decide) ⟨"b", "1.0", [], []⟩ (by decide)

/-! ### C5: removal order does not affect the final set -/

/-- `b` gets enqueued when `a` is popped: `b` is a listed direct dependency
of some report entry whose package name is `a`'s. -/
def ItemEdge (deps : List Entry) (a b : RawDep) : Prop :=
  b ∈ depsOfName deps a.package_name

/-- The spec's nondeterministic flattening walk: repeatedly remove one item
from anywhere in the queue, collect it, and enqueue the direct dependencies
of every report entry matching its package name.  `Walks deps acc queue out`
holds when some such run starting from collected list `acc` and queue
`queue` empties the queue having collected `out`.  The code's remove-last
walk is one removal strategy (`walkFuel_walks`). -/
inductive Walks (deps : List Entry) :
    List RawDep → List RawDep → List RawDep → Prop
  | done (acc : List RawDep) : Walks deps acc [] acc
  | step (acc pre post out : List RawDep) (x : RawDep) :
      Walks deps (acc ++ [x])
        (pre ++ post ++ depsOfName deps x.package_name) out →
      Walks deps acc (pre ++ x :: post) out

/-- `Walks.step` with the list reshuffling as equations, convenient for
building concrete runs. -/
theorem Walks.step_eq {deps : List Entry}
    {acc queue queue' out pre post : List RawDep} {x : RawDep}
    (hq : queue = pre ++ x :: post)
    (hq' : queue' = pre ++ post ++ depsOfName deps x.package_name)
    (h : Walks deps (acc ++ [x]) queue' out) : Walks deps acc queue out := by
  subst hq
  subst hq'
  exact Walks.step acc pre post out x h

/-- The collected output of any completed walk is exactly the accumulator
together with everything reachable (along `ItemEdge`) from the queue. -/
theorem walks_mem {deps : List Entry} {acc queue out : List RawDep}
    (h : Walks deps acc queue out) :
    ∀ z, z ∈ out ↔ z ∈ acc ∨
      ∃ q ∈ queue, Relation.ReflTransGen (ItemEdge deps) q z := by
  induction h with
  | done acc => simp
  | step acc pre post out x hw ih =>
    intro z
    rw [ih z]
    constructor
    · rintro (hz | ⟨q, hq, hr⟩)
      · rcases List.mem_append.mp hz with h1 | h1
        · exact Or.inl h1
        · rcases List.mem_singleton.mp h1 with rfl
          refine Or.inr ⟨z, ?_, Relation.ReflTransGen.refl⟩
          exact List.mem_append.mpr (Or.inr (List.mem_cons_self z post))
      · rcases List.mem_append.mp hq with h1 | h1
        · rcases List.mem_append.mp h1 with h2 | h2
          · exact Or.inr ⟨q, List.mem_append.mpr (Or.inl h2), hr⟩
          · exact Or.inr ⟨q,
              List.mem_append.mpr (Or.inr (List.mem_cons_of_mem x h2)), hr⟩
        · refine Or.inr ⟨x, ?_, Relation.ReflTransGen.head h1 hr⟩
          exact List.mem_append.mpr (Or.inr (List.mem_cons_self x post))
    · rintro (hz | ⟨q, hq, hr⟩)
      · exact Or.inl (List.mem_append.mpr (Or.inl hz))
      · rcases List.mem_append.mp hq with h1 | h1
        · exact Or.inr ⟨q,
            List.mem_append.mpr (Or.inl (List.mem_append.mpr (Or.inl h1))), hr⟩
        · rcases List.mem_cons.mp h1 with rfl | h2
          · rcases Relation.ReflTransGen.cases_head hr with rfl | ⟨y, hxy, hyz⟩
            · exact Or.inl (List.mem_append.mpr
                (Or.inr (List.mem_singleton.mpr rfl)))
            · exact Or.inr ⟨y, List.mem_append.mpr (Or.inr hxy), hyz⟩
          · exact Or.inr ⟨q, List.mem_append.mpr
              (Or.inl (List.mem_append.mpr (Or.inr h2))), hr⟩

/-- The code's remove-last walk is one removal strategy of the
nondeterministic walk. -/
theorem walkFuel_walks {deps : List Entry} {fuel : Nat}
    {acc queue out : List RawDep} (h : walkFuel deps fuel acc queue = some out) :
    Walks deps acc queue out := by
  induction fuel generalizing acc queue with
  | zero =>
    cases queue with
    | nil =>
      obtain rfl : acc = out := by injection h
      exact Walks.done acc
    | cons q qs => cases h
  | succ n ih =>
    cases queue with
    | nil =>
      obtain rfl : acc = out := by injection h
      exact Walks.done acc
    | cons q qs =>
      have hqx : q :: qs = (q :: qs).dropLast ++
          [(q :: qs).getLast (List.cons_ne_nil q qs)] :=
        (List.dropLast_append_getLast (List.cons_ne_nil q qs)).symm
      rw [hqx, walkFuel_concat] at h
      refine Walks.step_eq hqx ?_ (ih h)
      rw [List.append_nil]

/-- `parseAll` fails exactly when some entry fails to parse. -/
theorem parseAll_none {l : List RawDep} :
    parseAll l = none ↔ ∃ x ∈ l, Dependency.parse x = none := by
  induction l with
  | nil => simp [parseAll]
  | cons a as ih =>
    cases ha : Dependency.parse a with
    | none =>
      rw [parseAll_cons_none1 ha]
      exact iff_of_true rfl ⟨a, List.mem_cons_self a as, ha⟩
    | some x =>
      cases has : parseAll as with
      | none =>
        rw [parseAll_cons_none2 ha has]
        obtain ⟨y, hy, hyp⟩ := ih.mp has
        exact iff_of_true rfl ⟨y, List.mem_cons_of_mem a hy, hyp⟩
      | some xs =>
        rw [parseAll_cons_some ha has]
        constructor
        · intro hcontra; cases hcontra
        · rintro ⟨y, hy, hyp⟩
          rcases List.mem_cons.mp hy with rfl | h1
          · rw [ha] at hyp; cases hyp
          · exact absurd (ih.mpr ⟨y, h1, hyp⟩) (by rw [has]; intro hx; cases hx)

/-- The final `all_deps` value produced from a collected raw list: parse
every entry, then deduplicate and sort (`none` when some entry fails to
parse). -/
def finalize (raw : List RawDep) : Option (List Dependency) :=
  match parseAll raw with
  | none => none
  | some ds => some (sortedDedup ds)

/-- `finalize` depends only on the set of collected raw entries. -/
theorem finalize_eq_of_mem_iff {l₁ l₂ : List RawDep}
    (h : ∀ x, x ∈ l₁ ↔ x ∈ l₂) : finalize l₁ = finalize l₂ := by
  unfold finalize
  cases h1 : parseAll l₁ with
  | none =>
    obtain ⟨x, hx, hxp⟩ := parseAll_none.mp h1
    rw [parseAll_none.mpr ⟨x, (h x).mp hx, hxp⟩]
  | some d₁ =>
    cases h2 : parseAll l₂ with
    | none =>
      obtain ⟨x, hx, hxp⟩ := parseAll_none.mp h2
      have hn : parseAll l₁ = none := parseAll_none.mpr ⟨x, (h x).mpr hx, hxp⟩
      rw [hn] at h1
      cases h1
    | some d₂ =>
      have hsd : sortedDedup d₁ = sortedDedup d₂ := by
        refine sortedDedup_eq_of_mem_iff ?_
        intro z
        rw [parseAll_mem h1 z, parseAll_mem h2 z]
        constructor
        · rintro ⟨x, hx, hxp⟩; exact ⟨x, (h x).mp hx, hxp⟩
        · rintro ⟨x, hx, hxp⟩; exact ⟨x, (h x).mpr hx, hxp⟩
      show some (sortedDedup d₁) = some (sortedDedup d₂)
      rw [hsd]

/-- C5: for every report on which the code's walk terminates, the final
deduplicated, sorted `all` set is independent of the removal strategy: the
code's remove-last discipline is one run of the nondeterministic walk, and
any two completed runs from the resolver's seed produce equal final sets. -/
theorem c5_order_independence (deps : List Entry) (target : String) :
    (∀ fuel out, walkFuel deps fuel [] (ownRaw deps target) = some out →
      Walks deps [] (ownRaw deps target) out) ∧
    (∀ out1 out2, Walks deps [] (ownRaw deps target) out1 →
      Walks deps [] (ownRaw deps target) out2 →
      finalize out1 = finalize out2) := by
  constructor
  · intro fuel out h
    exact walkFuel_walks h
  · intro out1 out2 h1 h2
    refine finalize_eq_of_mem_iff ?_
    intro z
    rw [walks_mem h1 z, walks_mem h2 z]

theorem c5_order_independence_witness :
    finalize [⟨"c", "1", ""⟩, ⟨"b", "1", ""⟩] =
      finalize [⟨"b", "1", ""⟩, ⟨"c", "1", ""⟩] := by
  have h1 : Walks [⟨"a", [⟨"b", "1", ""⟩, ⟨"c", "1", ""⟩]⟩] []
      (ownRaw [⟨"a", [⟨"b", "1", ""⟩, ⟨"c", "1", ""⟩]⟩] "a")
      [⟨"c", "1", ""⟩, ⟨"b", "1", ""⟩] :=
    (c5_order_independence [⟨"a", [⟨"b", "1", ""⟩, ⟨"c", "1", ""⟩]⟩] "a").1
      2 [⟨"c", "1", ""⟩, ⟨"b", "1", ""⟩] (by decide)
  have h2 : Walks [⟨"a", [⟨"b", "1", ""⟩, ⟨"c", "1", ""⟩]⟩] []
      (ownRaw [⟨"a", [⟨"b", "1", ""⟩, ⟨"c", "1", ""⟩]⟩] "a")
      [⟨"b", "1", ""⟩, ⟨"c", "1", ""⟩] := by
    refine @Walks.step_eq [⟨"a", [⟨"b", "1", ""⟩, ⟨"c", "1", ""⟩]⟩] []
      (ownRaw [⟨"a", [⟨"b", "1", ""⟩, ⟨"c", "1", ""⟩]⟩] "a") [⟨"c", "1", ""⟩]
      [⟨"b", "1", ""⟩, ⟨"c", "1", ""⟩] [] [⟨"c", "1", ""⟩] ⟨"b", "1", ""⟩
      (by decide) (by decide) ?_
    refine @Walks.step_eq [⟨"a", [⟨"b", "1", ""⟩, ⟨"c", "1", ""⟩]⟩]
      ([] ++ [⟨"b", "1", ""⟩]) [⟨"c", "1", ""⟩] [] [⟨"b", "1", ""⟩, ⟨"c", "1", ""⟩]
      [] [] ⟨"c", "1", ""⟩ (by decide) (by decide) ?_
    exact Walks.done [⟨"b", "1", ""⟩, ⟨"c", "1", ""⟩]
  exact (c5_order_independence [⟨"a", [⟨"b", "1", ""⟩, ⟨"c", "1", ""⟩]⟩] "a").2
    [⟨"c", "1", ""⟩, ⟨"b", "1", ""⟩] [⟨"b", "1", ""⟩, ⟨"c", "1", ""⟩] h1 h2

/-! ### C4: termination of the flattening walk -/

/-- The report's dependency graph on package names: an edge from `x` to `y`
when some report entry named `x` lists a direct dependency named `y`. -/
def EdgeN (deps : List Entry) (x y : String) : Prop :=
  ∃ d ∈ depsOfName deps x, d.package_name = y

/-- A package name reachable from the target's direct dependencies. -/
def ReachableName (deps : List Entry) (target c : String) : Prop :=
  ∃ d ∈ ownRaw deps target, Relation.ReflTransGen (EdgeN deps) d.package_name c

/-- A dependency cycle reachable from the target's direct dependencies. -/
def CycleReachable (deps : List Entry) (target : String) : Prop :=
  ∃ c, ReachableName deps target c ∧ Relation.TransGen (EdgeN deps) c c

theorem transGen_head_decomp {α : Type} {r : α → α → Prop} {a c : α}
    (h : Relation.TransGen r a c) :
    ∃ b, r a b ∧ Relation.ReflTransGen r b c := by
  induction h with
  | single hab => exact ⟨_, hab, Relation.ReflTransGen.refl⟩
  | tail _ hbc ih =>
    obtain ⟨b, h1, h2⟩ := ih
    exact ⟨b, h1, h2.tail hbc⟩

/-- A name from which some cycle of the report graph is reachable. -/
def ReachesCycle (deps : List Entry) (x : String) : Prop :=
  ∃ c, Relation.ReflTransGen (EdgeN deps) x c ∧
    Relation.TransGen (EdgeN deps) c c

/-- A name reaching a cycle has an edge to a name reaching a cycle. -/
theorem reachesCycle_step {deps : List Entry} {x : String}
    (h : ReachesCycle deps x) : ∃ y, EdgeN deps x y ∧ ReachesCycle deps y := by
  obtain ⟨c, hxc, hcc⟩ := h
  rcases Relation.ReflTransGen.cases_head hxc with rfl | ⟨y, hxy, hyc⟩
  · obtain ⟨b, h1, h2⟩ := transGen_head_decomp hcc
    exact ⟨b, h1, ⟨x, h2, hcc⟩⟩
  · exact ⟨y, hxy, ⟨c, hyc, hcc⟩⟩

/-- While some queue item's name reaches a cycle the walk cannot finish:
whatever the fuel, `walkFuel` runs out. -/
theorem walkFuel_none_of_reachesCycle {deps : List Entry} :
    ∀ fuel (acc queue : List RawDep),
      (∃ q ∈ queue, ReachesCycle deps q.package_name) →
      walkFuel deps fuel acc queue = none := by
  intro fuel
  induction fuel with
  | zero =>
    intro acc queue hex
    obtain ⟨q, hq, _⟩ := hex
    cases queue with
    | nil => cases hq
    | cons a as => rfl
  | succ n ih =>
    intro acc queue hex
    obtain ⟨q, hq, hqc⟩ := hex
    cases queue with
    | nil => cases hq
    | cons a as =>
      have hqx : a :: as = (a :: as).dropLast ++
          [(a :: as).getLast (List.cons_ne_nil a as)] :=
        (List.dropLast_append_getLast (List.cons_ne_nil a as)).symm
      rw [hqx, walkFuel_concat]
      apply ih
      by_cases hx : ReachesCycle deps
          ((a :: as).getLast (List.cons_ne_nil a as)).package_name
      · obtain ⟨y, ⟨d, hd, hdy⟩, hyc⟩ := reachesCycle_step hx
        refine ⟨d, List.mem_append.mpr (Or.inr hd), ?_⟩
        rw [hdy]
        exact hyc
      · have hq' : q ∈ (a :: as).dropLast := by
          rw [hqx] at hq
          rcases List.mem_append.mp hq with h1 | h1
          · exact h1
          · rcases List.mem_singleton.mp h1 with rfl
            exact absurd hqc hx
        exact ⟨q, List.mem_append.mpr (Or.inl hq'), hqc⟩

/-- Total number of listed direct dependencies in the report — a bound on
how many items a single pop can enqueue. -/
def entryCount (deps : List Entry) : Nat :=
  (deps.flatMap (fun entry => entry.dependencies)).length

theorem depsOfName_length_le (deps : List Entry) (name : String) :
    (depsOfName deps name).length ≤ entryCount deps := by
  induction deps with
  | nil => simp [depsOfName, entryCount]
  | cons e es ih =>
    simp only [depsOfName, entryCount, List.flatMap_cons, List.length_append]
      at ih ⊢
    rw [List.filter_cons]
    split
    · simp only [List.flatMap_cons, List.length_append]
      omega
    · omega

/-- The termination measure of a queue under a rank function: each item
weighs `(entryCount deps + 1) ^ rank of its name`. -/
def queueMeasure (deps : List Entry) (rank : String → Nat)
    (queue : List RawDep) : Nat :=
  (queue.map (fun it => (entryCount deps + 1) ^ rank it.package_name)).sum

theorem queueMeasure_append (deps : List Entry) (rank : String → Nat)
    (l₁ l₂ : List RawDep) :
    queueMeasure deps rank (l₁ ++ l₂) =
      queueMeasure deps rank l₁ + queueMeasure deps rank l₂ := by
  simp [queueMeasure]

/-- One pop enqueues strictly less weight than the popped item carried. -/
theorem enqueued_measure_lt {deps : List Entry} {rank : String → Nat}
    {target : String} {x : RawDep}
    (hrank : ∀ a b, ReachableName deps target a → EdgeN deps a b →
      rank b < rank a)
    (hxr : ReachableName deps target x.package_name) :
    queueMeasure deps rank (depsOfName deps x.package_name) <
      (entryCount deps + 1) ^ rank x.package_name := by
  cases hE : depsOfName deps x.package_name with
  | nil =>
    have : 0 < (entryCount deps + 1) ^ rank x.package_name :=
      pow_pos (Nat.succ_pos _) _
    simp only [queueMeasure, List.map_nil, List.sum_nil]
    exact this
  | cons d ds =>
    have hdedge : EdgeN deps x.package_name d.package_name :=
      ⟨d, by rw [hE]; exact List.mem_cons_self d ds, rfl⟩
    have hr1 : 1 ≤ rank x.package_name := by
      have := hrank _ _ hxr hdedge
      omega
    have hbound : ∀ w ∈ (depsOfName deps x.package_name).map
        (fun it => (entryCount deps + 1) ^ rank it.package_name),
        w ≤ (entryCount deps + 1) ^ (rank x.package_name - 1) := by
      intro w hw
      obtain ⟨it, hit, rfl⟩ := List.mem_map.mp hw
      have hedge : EdgeN deps x.package_name it.package_name := ⟨it, hit, rfl⟩
      have hlt := hrank _ _ hxr hedge
      exact Nat.pow_le_pow_right (Nat.succ_pos _) (by omega)
    have hsum := List.sum_le_card_nsmul _ _ hbound
    rw [List.length_map, smul_eq_mul] at hsum
    have hlen := depsOfName_length_le deps x.package_name
    have hb : 0 < (entryCount deps + 1) ^ (rank x.package_name - 1) :=
      pow_pos (Nat.succ_pos _) _
    have hpow : (entryCount deps + 1) ^ rank x.package_name =
        (entryCount deps + 1) ^ (rank x.package_name - 1) *
          (entryCount deps + 1) := by
      rw [← pow_succ]
      congr 1
      omega
    rw [← hE] at *
    unfold queueMeasure
    have hmul : (depsOfName deps x.package_name).length *
        (entryCount deps + 1) ^ (rank x.package_name - 1) ≤
        entryCount deps * (entryCount deps + 1) ^ (rank x.package_name - 1) :=
      Nat.mul_le_mul_right _ hlen
    rw [hpow]
    have : entryCount deps *
        (entryCount deps + 1) ^ (rank x.package_name - 1) <
        (entryCount deps + 1) ^ (rank x.package_name - 1) *
          (entryCount deps + 1) := by
      rw [mul_comm ((entryCount deps + 1) ^ (rank x.package_name - 1))
        (entryCount deps + 1), Nat.succ_mul]
      omega
    omega

/-- With a rank function strictly decreasing along reachable edges, fuel
equal to the queue's measure completes the walk. -/
theorem walkFuel_some_of_measure {deps : List Entry} {target : String}
    {rank : String → Nat}
    (hrank : ∀ a b, ReachableName deps target a → EdgeN deps a b →
      rank b < rank a) :
    ∀ fuel (acc queue : List RawDep),
      (∀ q ∈ queue, ReachableName deps target q.package_name) →
      queueMeasure deps rank queue ≤ fuel →
      ∃ out, walkFuel deps fuel acc queue = some out := by
  intro fuel
  induction fuel with
  | zero =>
    intro acc queue hre hm
    cases queue with
    | nil => exact ⟨acc, rfl⟩
    | cons a as =>
      exfalso
      have h1 : 0 < (entryCount deps + 1) ^ rank a.package_name :=
        pow_pos (Nat.succ_pos _) _
      have h2 : 0 < queueMeasure deps rank (a :: as) := by
        unfold queueMeasure
        simp only [List.map_cons, List.sum_cons]
        omega
      omega
  | succ n ih =>
    intro acc queue hre hm
    cases queue with
    | nil => exact ⟨acc, rfl⟩
    | cons a as =>
      have hne := List.cons_ne_nil a as
      have hqx : a :: as = (a :: as).dropLast ++ [(a :: as).getLast hne] :=
        (List.dropLast_append_getLast hne).symm
      have hxq : (a :: as).getLast hne ∈ a :: as := List.getLast_mem hne
      have hxr : ReachableName deps target
          ((a :: as).getLast hne).package_name := hre _ hxq
      rw [hqx, walkFuel_concat]
      apply ih
      · intro q hq
        rcases List.mem_append.mp hq with h1 | h1
        · refine hre q ?_
          rw [hqx]
          exact List.mem_append.mpr (Or.inl h1)
        · obtain ⟨seed, hs, hchain⟩ := hxr
          exact ⟨seed, hs, hchain.tail ⟨q, h1, rfl⟩⟩
      · have hmq : queueMeasure deps rank (a :: as) =
            queueMeasure deps rank ((a :: as).dropLast) +
              (entryCount deps + 1) ^ rank ((a :: as).getLast hne).package_name := by
          nth_rewrite 1 [hqx]
          rw [queueMeasure_append]
          simp [queueMeasure]
        have hlt := enqueued_measure_lt hrank hxr
        rw [queueMeasure_append]
        omega

/-- When no cycle is reachable from the target's direct dependencies, a rank
function strictly decreasing along reachable edges exists: rank a name by how
many report-entry names it reaches. -/
theorem rank_exists_of_no_cycle {deps : List Entry} {target : String}
    (h : ¬ CycleReachable deps target) :
    ∃ rank : String → Nat,
      ∀ a b, ReachableName deps target a → EdgeN deps a b →
        rank b < rank a := by
  classical
  refine ⟨fun z =>
    ((deps.map (fun entry => entry.pkgname)).toFinset.filter
      (fun w => Relation.ReflTransGen (EdgeN deps) z w)).card, ?_⟩
  intro a b hra hab
  refine Finset.card_lt_card ?_
  rw [Finset.ssubset_def]
  constructor
  · intro w hw
    rw [Finset.mem_filter] at hw ⊢
    exact ⟨hw.1, Relation.ReflTransGen.head hab hw.2⟩
  · intro hsub
    have haname : a ∈ (deps.map (fun entry => entry.pkgname)).toFinset := by
      obtain ⟨d, hd, _⟩ := hab
      unfold depsOfName at hd
      rw [List.mem_flatMap] at hd
      obtain ⟨e, he, _⟩ := hd
      rw [List.mem_filter] at he
      rw [List.mem_toFinset, List.mem_map]
      exact ⟨e, he.1, by simpa using he.2⟩
    have hain := hsub (Finset.mem_filter.mpr ⟨haname, Relation.ReflTransGen.refl⟩)
    rw [Finset.mem_filter] at hain
    exact h ⟨a, hra, Relation.TransGen.head' hab hain.2⟩

/-- C4: the flattening walk terminates for every report in which the
dependency graph reachable from the target's direct dependencies is acyclic
(some fuel completes it), and for every report in which a cycle is reachable
from the target's direct dependencies it does not terminate: every fuel runs
out, there being no cycle guard. -/
theorem c4_termination (deps : List Entry) (target : String) :
    (¬ CycleReachable deps target →
      ∃ fuel out, walkFuel deps fuel [] (ownRaw deps target) = some out) ∧
    (CycleReachable deps target →
      ∀ fuel, walkFuel deps fuel [] (ownRaw deps target) = none) := by
  constructor
  · intro h
    obtain ⟨rank, hrank⟩ := rank_exists_of_no_cycle h
    obtain ⟨out, hout⟩ := walkFuel_some_of_measure hrank
      (queueMeasure deps rank (ownRaw deps target)) [] (ownRaw deps target)
      (fun q hq => ⟨q, hq, Relation.ReflTransGen.refl⟩) (le_refl _)
    exact ⟨queueMeasure deps rank (ownRaw deps target), out, hout⟩
  · intro h fuel
    obtain ⟨c, ⟨d, hd, hchain⟩, hcc⟩ := h
    exact walkFuel_none_of_reachesCycle fuel [] (ownRaw deps target)
      ⟨d, hd, ⟨c, hchain, hcc⟩⟩

theorem c4_termination_witness :
    (∃ fuel out, walkFuel [] fuel [] (ownRaw ([] : List Entry) "a") =
      some out) ∧
    walkFuel [⟨"a", [⟨"a", "1", ""⟩]⟩] 7 []
      (ownRaw [⟨"a", [⟨"a", "1", ""⟩]⟩] "a") = none := by
  constructor
  · refine (c4_termination [] "a").1 ?_
    rintro ⟨c, ⟨d, hd, _⟩, _⟩
    cases hd
  · exact (c4_termination [⟨"a", [⟨"a", "1", ""⟩]⟩] "a").2
      ⟨"a", ⟨⟨"a", "1", ""⟩, by decide, Relation.ReflTransGen.refl⟩,
        Relation.TransGen.single ⟨⟨"a", "1", ""⟩, by decide, rfl⟩⟩ 7
